import Mathlib

/-!
Verification of the Mauritian Recipe Finder client-side code
(`main.js` / the static typeahead script) and of the Matcher/Ranker
contract described in the design document.

JavaScript strings are modelled as lists of characters (`JStr`).
Nullable DOM values are modelled with `Option`.
-/

namespace MRF

/-- Model of a JavaScript string: a list of characters. -/
abbrev JStr := List Char

/-- Whitespace as recognised by `String.prototype.trim` (ASCII fragment). -/
def isWS (c : Char) : Bool :=
  c == ' ' || c == '\t' || c == '\n' || c == '\r'

/-- Model of `s.trim()`: drop leading and trailing whitespace. -/
def trimL (s : JStr) : JStr :=
  ((s.dropWhile isWS).reverse.dropWhile isWS).reverse

/-- Model of `s.toLowerCase()` (character-wise lowering). -/
def lowerL (s : JStr) : JStr :=
  s.map Char.toLower

/-- Model of `s.split(",")`: split at every comma; always returns at
least one piece, and `n` commas yield `n + 1` pieces. -/
def splitComma : JStr → List JStr
  | [] => [[]]
  | c :: rest =>
    if c = ',' then [] :: splitComma rest
    else
      match splitComma rest with
      | [] => [[c]]
      | p :: ps => (c :: p) :: ps

/-- `parseCommaList` from `main.js`: split on commas, trim each piece,
drop the empty pieces (`filter(Boolean)`). -/
def parseCommaList (v : JStr) : List JStr :=
  ((splitComma v).map trimL).filter (fun t => !t.isEmpty)

/-- Replacement table of `escapeHtml`'s regex callback: the five special
characters become HTML entities, all others are kept. -/
def escapeChar (c : Char) : JStr :=
  if c = '&' then "&amp;".toList
  else if c = '<' then "&lt;".toList
  else if c = '>' then "&gt;".toList
  else if c = Char.ofNat 34 then "&quot;".toList
  else if c = Char.ofNat 39 then "&#039;".toList
  else [c]

/-- `escapeHtml` from `main.js`: `(str ?? "")` (so `null`/`undefined`
become the empty string) followed by the global regex replacement. -/
def escapeHtml (s : Option JStr) : JStr :=
  match s with
  | none => []
  | some t => t.flatMap escapeChar

theorem escapeChar_no_specials (a c : Char) (hc : c ∈ escapeChar a) :
    c ≠ '<' ∧ c ≠ '>' ∧ c ≠ Char.ofNat 34 ∧ c ≠ Char.ofNat 39 := by
  unfold escapeChar at hc
  split_ifs at hc with h1 h2 h3 h4 h5
  · exact (by decide :
      ∀ x ∈ "&amp;".toList,
        x ≠ '<' ∧ x ≠ '>' ∧ x ≠ Char.ofNat 34 ∧ x ≠ Char.ofNat 39) c hc
  · exact (by decide :
      ∀ x ∈ "&lt;".toList,
        x ≠ '<' ∧ x ≠ '>' ∧ x ≠ Char.ofNat 34 ∧ x ≠ Char.ofNat 39) c hc
  · exact (by decide :
      ∀ x ∈ "&gt;".toList,
        x ≠ '<' ∧ x ≠ '>' ∧ x ≠ Char.ofNat 34 ∧ x ≠ Char.ofNat 39) c hc
  · exact (by decide :
      ∀ x ∈ "&quot;".toList,
        x ≠ '<' ∧ x ≠ '>' ∧ x ≠ Char.ofNat 34 ∧ x ≠ Char.ofNat 39) c hc
  · exact (by decide :
      ∀ x ∈ "&#039;".toList,
        x ≠ '<' ∧ x ≠ '>' ∧ x ≠ Char.ofNat 34 ∧ x ≠ Char.ofNat 39) c hc
  · simp only [List.mem_singleton] at hc
    subst hc
    exact ⟨h2, h3, h4, h5⟩

/-- Claim C9: `escapeHtml` is total — `null`/`undefined` inputs yield the
empty string — and its output never contains any of the characters `<`,
`>`, double quote, or single quote. -/
theorem C9_escapeHtml_total_and_safe :
    escapeHtml none = [] ∧
    ∀ (s : JStr) (c : Char), c ∈ escapeHtml (some s) →
      c ≠ '<' ∧ c ≠ '>' ∧ c ≠ Char.ofNat 34 ∧ c ≠ Char.ofNat 39 := by
  refine ⟨rfl, ?_⟩
  intro s c hc
  simp only [escapeHtml, List.mem_flatMap] at hc
  obtain ⟨a, _, hca⟩ := hc
  exact escapeChar_no_specials a c hca

/-- Witness for C9 at a concrete input: character `a` of
`escapeHtml "a"` is none of the four dangerous characters. -/
theorem C9_witness :
    'a' ≠ '<' ∧ 'a' ≠ '>' ∧ 'a' ≠ Char.ofNat 34 ∧ 'a' ≠ Char.ofNat 39 :=
  C9_escapeHtml_total_and_safe.2 ['a'] 'a' (by decide)

/-! ## Favorites (local-storage key-value store, `main.js`) -/

/-- `isFavorite` from `main.js`, parametrised by the stored favorites
array: `getFavorites().includes(id)`. -/
def isFavorite (favs : List Int) (id : Int) : Bool :=
  favs.contains id

/-- `toggleFavorite` from `main.js`, acting on the stored favorites
array: `indexOf` / `push` when absent, `splice` of the first occurrence
when present. -/
def toggleFavorite (favs : List Int) (id : Int) : List Int :=
  if favs.contains id then favs.erase id else favs ++ [id]

/-- The boolean `toggleFavorite` returns: `favs.includes(id)` evaluated
on the updated array. -/
def toggleFavoriteRet (favs : List Int) (id : Int) : Bool :=
  (toggleFavorite favs id).contains id

/-- Claim C6 counterexample: on the stored list `[3, 3]` (which a user
could have in local storage), toggling id 3 twice yields `[]`, so the
set of favorite ids is not restored: 3 was a favorite before and is not
after. The claim as stated (for every favorites list) is false. -/
theorem C6_counterexample :
    toggleFavorite (toggleFavorite [3, 3] 3) 3 = [] ∧
    isFavorite [3, 3] 3 = true ∧ isFavorite [] 3 = false := by
  decide

/-- Claim C6 (amended): for every duplicate-free favorites list —
the only lists `toggleFavorite` itself ever produces — toggling adds an
absent id and removes a present one, the returned boolean agrees with
`isFavorite` on the updated list, and toggling twice preserves the set
of favorite ids. -/
theorem C6_toggleFavorite_props (favs : List Int) (id : Int)
    (h : favs.Nodup) :
    (isFavorite favs id = false → toggleFavorite favs id = favs ++ [id]) ∧
    (isFavorite favs id = true → id ∉ toggleFavorite favs id) ∧
    (toggleFavoriteRet favs id = isFavorite (toggleFavorite favs id) id) ∧
    (∀ x, x ∈ toggleFavorite (toggleFavorite favs id) id ↔ x ∈ favs) := by
  refine ⟨?_, ?_, rfl, ?_⟩
  · intro hnot
    have hmem : id ∉ favs := by simpa [isFavorite] using hnot
    simp [toggleFavorite, hmem]
  · intro htrue
    have hmem : id ∈ favs := by simpa [isFavorite] using htrue
    have h1 : toggleFavorite favs id = favs.erase id := by
      simp [toggleFavorite, hmem]
    rw [h1]
    intro hin
    exact ((h.mem_erase_iff).mp hin).1 rfl
  · intro x
    by_cases hmem : id ∈ favs
    · have h1 : toggleFavorite favs id = favs.erase id := by
        simp [toggleFavorite, hmem]
      have hner : id ∉ favs.erase id := fun hin =>
        ((h.mem_erase_iff).mp hin).1 rfl
      have h2 : toggleFavorite (favs.erase id) id = favs.erase id ++ [id] := by
        simp [toggleFavorite, hner]
      rw [h1, h2]
      simp only [List.mem_append, List.mem_singleton]
      constructor
      · rintro (hx | rfl)
        · exact ((h.mem_erase_iff).mp hx).2
        · exact hmem
      · intro hx
        by_cases hxi : x = id
        · exact Or.inr hxi
        · exact Or.inl ((h.mem_erase_iff).mpr ⟨hxi, hx⟩)
    · have h1 : toggleFavorite favs id = favs ++ [id] := by
        simp [toggleFavorite, hmem]
      have h2 : toggleFavorite (favs ++ [id]) id = favs := by
        simp only [toggleFavorite]
        rw [if_pos (by simp)]
        rw [List.erase_append_right _ hmem]
        simp
      rw [h1, h2]

/-- Witness for C6 at a concrete input: on the duplicate-free list `[1]`,
toggling the absent id 2 appends it. -/
theorem C6_witness : toggleFavorite [1] 2 = [1] ++ [2] :=
  (C6_toggleFavorite_props [1] 2 (by decide)).1 (by decide)

/-! ## Local-storage reads (`getFavorites`, `loadLastSearch`) -/

/-- Model of a JSON value as produced by `JSON.parse` (numbers modelled
as integers; the claims under study only inspect the value's shape and
truthiness). -/
inductive JSVal where
  | jnull : JSVal
  | jbool : Bool → JSVal
  | jnum : Int → JSVal
  | jstr : JStr → JSVal
  | jarr : List JSVal → JSVal
  | jobj : List (JStr × JSVal) → JSVal

/-- JavaScript truthiness of a JSON value: `null`, `false`, `0` and `""`
are falsy; every array or object is truthy. -/
def truthy : JSVal → Bool
  | .jnull => false
  | .jbool b => b
  | .jnum n => n != 0
  | .jstr s => !s.isEmpty
  | .jarr _ => true
  | .jobj _ => true

/-- JavaScript `a || b` on JSON values. -/
def jsOr (a b : JSVal) : JSVal :=
  cond (truthy a) a b

/-- Is the value an array? -/
def isArr : JSVal → Bool
  | .jarr _ => true
  | _ => false

/-- Is the value an object? -/
def isObj : JSVal → Bool
  | .jobj _ => true
  | _ => false

/-- What `localStorage.getItem` + `JSON.parse` can yield for a key:
the key is absent (`getItem` returns `null`, and `JSON.parse(null)`
parses the string `"null"` to the JSON value `null`), the stored string
is invalid JSON (`JSON.parse` throws), or it parses to a value. -/
inductive StoredVal where
  | absent : StoredVal
  | invalid : StoredVal
  | val : JSVal → StoredVal

/-- `getFavorites` from `main.js`:
`try { return JSON.parse(localStorage.getItem(k)) || []; } catch { return []; }`. -/
def getFavorites : StoredVal → JSVal
  | .absent => jsOr .jnull (.jarr [])
  | .invalid => .jarr []
  | .val v => jsOr v (.jarr [])

/-- `loadLastSearch` from `main.js`:
`try { return JSON.parse(localStorage.getItem(k)) || null; } catch { return null; }`. -/
def loadLastSearch : StoredVal → JSVal
  | .absent => jsOr .jnull .jnull
  | .invalid => .jnull
  | .val v => jsOr v .jnull

/-- Claim C8 counterexample: a stored value of `5` (valid JSON, truthy,
not an array and not an object) is returned as-is by both functions, so
`getFavorites` does not always return an array and `loadLastSearch` does
not always return an object or null. -/
theorem C8_counterexample :
    getFavorites (.val (.jnum 5)) = .jnum 5 ∧
    isArr (.jnum 5) = false ∧
    loadLastSearch (.val (.jnum 5)) = .jnum 5 ∧
    isObj (.jnum 5) = false ∧ (JSVal.jnum 5) ≠ .jnull := by
  refine ⟨rfl, rfl, rfl, rfl, ?_⟩
  intro hcon
  cases hcon

/-- Claim C8 (amended): `getFavorites` and `loadLastSearch` never throw;
when the stored value is absent or not valid JSON they return the
fallbacks (`[]` and `null` respectively); a stored value parsing to a
truthy JSON value is returned as-is — even when it is not an array
(resp. not an object) — and a falsy parse yields the fallback. -/
theorem C8_storage_fallbacks :
    getFavorites .absent = .jarr [] ∧
    getFavorites .invalid = .jarr [] ∧
    loadLastSearch .absent = .jnull ∧
    loadLastSearch .invalid = .jnull ∧
    (∀ v, truthy v = true →
      getFavorites (.val v) = v ∧ loadLastSearch (.val v) = v) ∧
    (∀ v, truthy v = false →
      getFavorites (.val v) = .jarr [] ∧ loadLastSearch (.val v) = .jnull) := by
  refine ⟨rfl, rfl, rfl, rfl, ?_, ?_⟩
  · intro v hv
    constructor <;> simp [getFavorites, loadLastSearch, jsOr, hv]
  · intro v hv
    constructor <;> simp [getFavorites, loadLastSearch, jsOr, hv]

/-- Witness for C8 at a concrete input: the truthy stored array `[1]` is
returned unchanged by `getFavorites`. -/
theorem C8_witness :
    getFavorites (.val (.jarr [.jnum 1])) = .jarr [.jnum 1] :=
  (C8_storage_fallbacks.2.2.2.2.1 (.jarr [.jnum 1]) rfl).1

/-! ## Typeahead resolution (`attachTypeahead` in the static script) -/

/-- An entry of the typeahead feed as used by `attachTypeahead`:
a canonical label and a list of synonyms (a `null` synonym is modelled
as the empty string, matching the script's `(s || "")`). -/
structure TAEntry where
  label : JStr
  synonyms : List JStr
deriving DecidableEq

/-- The predicate of the `data.find(...)` call in `attachTypeahead`:
the entry's lower-cased label equals the normalized term, or some
synonym does. -/
def taMatches (val : JStr) (x : TAEntry) : Bool :=
  lowerL x.label == val || x.synonyms.any (fun s => lowerL s == val)

/-- The `change` handler of `attachTypeahead`: normalize the input with
`trim().toLowerCase()`; an empty normalized value leaves the input
unchanged; otherwise the first entry whose label or a synonym matches
replaces the input with that entry's canonical label. -/
def attachTypeaheadResolve (data : List TAEntry) (input : JStr) : JStr :=
  let val := lowerL (trimL input)
  if val.isEmpty then input
  else
    match data.find? (taMatches val) with
    | some m => m.label
    | none => input

/-- Claim C5 counterexample: with feed
`[{label "a", synonyms ["x"]}, {label "x", synonyms []}]` and typed term
`"x"`, the term equals the second entry's canonical label exactly, yet
the input is replaced by `"a"`: the first entry's synonym match wins, so
an exact canonical-label match does not take precedence over a synonym
match. -/
theorem C5_counterexample :
    attachTypeaheadResolve [⟨['a'], [['x']]⟩, ⟨['x'], []⟩] ['x'] = ['a'] ∧
    (⟨['x'], []⟩ : TAEntry) ∈ [(⟨['a'], [['x']]⟩ : TAEntry), ⟨['x'], []⟩] ∧
    lowerL (⟨['x'], []⟩ : TAEntry).label = lowerL (trimL ['x']) ∧
    (['a'] : JStr) ≠ ['x'] := by
  refine ⟨rfl, by decide, rfl, by decide⟩

/-- Claim C5 (amended): resolution is deterministic first-match-wins
over the feed entries in order: if the trimmed lower-cased term is
non-empty, matches an entry `x` (by canonical label or any synonym,
case-insensitively), and matches no entry before `x`, the input is
replaced by `x`'s canonical label; there is no precedence of
canonical-label matches over synonym matches of earlier entries. -/
theorem C5_first_match_wins (d1 d2 : List TAEntry) (x : TAEntry)
    (input : JStr)
    (hval : (lowerL (trimL input)).isEmpty = false)
    (hx : taMatches (lowerL (trimL input)) x = true)
    (h1 : ∀ y ∈ d1, taMatches (lowerL (trimL input)) y = false) :
    attachTypeaheadResolve (d1 ++ x :: d2) input = x.label := by
  unfold attachTypeaheadResolve
  rw [if_neg (by simp [hval])]
  have hfind : (d1 ++ x :: d2).find? (taMatches (lowerL (trimL input)))
      = some x := by
    induction d1 with
    | nil => simp [List.find?_cons, hx]
    | cons a l ih =>
      have ha : taMatches (lowerL (trimL input)) a = false :=
        h1 a (List.mem_cons_self a l)
      have ih' := ih (fun y hy => h1 y (List.mem_cons_of_mem a hy))
      simpa [List.find?_cons, ha] using ih'
  rw [hfind]

/-- Witness for C5 at a concrete input: with a non-matching first entry,
typing `" Ail "` resolves to the canonical label `"ail"` of the second
entry. -/
theorem C5_witness :
    attachTypeaheadResolve
      [⟨['b'], []⟩, ⟨['a', 'i', 'l'], []⟩] [' ', 'A', 'i', 'l', ' ']
      = ['a', 'i', 'l'] :=
  C5_first_match_wins [⟨['b'], []⟩] [] ⟨['a', 'i', 'l'], []⟩
    [' ', 'A', 'i', 'l', ' '] (by decide) (by decide) (by decide)

/-! ## Typeahead feed population (`initTypeahead` in `main.js`) -/

/-- An entry of the `/typeahead` feed as consumed by `initTypeahead`:
a `term` field and a fallback `q` field (a missing or null field is
modelled as the empty string, the falsy case of `x.term || x.q || ""`). -/
structure TAFeedEntry where
  id : JStr
  term : JStr
  q : JStr
deriving DecidableEq

/-- The effective term `x.term || x.q || ""` of a feed entry. -/
def effTerm (x : TAFeedEntry) : JStr :=
  if x.term.isEmpty then x.q else x.term

/-- The options `initTypeahead` appends to every ingredient datalist:
take the first 1000 feed entries, map each to `(dataset.id, value)`
with value the effective term, and keep those with a truthy term. -/
def initTypeaheadOptions (ta : List TAFeedEntry) : List (JStr × JStr) :=
  ((ta.take 1000).map (fun x => (x.id, effTerm x))).filter
    (fun p => !p.2.isEmpty)

/-- Claim C7 counterexample: a feed entry whose `term` field is empty
but whose `q` field is `"zx"` still yields an option, and that option's
value is `"zx"`, not the entry's (empty) term — so options are not
exactly the entries with non-empty `term`, with the term as value. -/
theorem C7_counterexample :
    initTypeaheadOptions [⟨['i'], [], ['z', 'x']⟩]
      = [(['i'], ['z', 'x'])] ∧
    (⟨['i'], [], ['z', 'x']⟩ : TAFeedEntry).term = [] ∧
    (['z', 'x'] : JStr) ≠ [] := by
  refine ⟨rfl, rfl, by decide⟩

/-- Claim C7 (amended): every ingredient datalist receives one option
per entry among the first 1000 feed entries whose effective term — the
`term` field, or the `q` field when `term` is empty — is non-empty, the
option's value being that effective term (paired with the entry id);
at most 1000 options are produced. -/
theorem C7_options_characterization (ta : List TAFeedEntry) :
    initTypeaheadOptions ta
      = ((ta.take 1000).filter (fun x => !(effTerm x).isEmpty)).map
          (fun x => (x.id, effTerm x)) ∧
    (initTypeaheadOptions ta).length ≤ 1000 := by
  constructor
  · unfold initTypeaheadOptions
    rw [List.filter_map]
    rfl
  · calc (initTypeaheadOptions ta).length
        ≤ ((ta.take 1000).map (fun x => (x.id, effTerm x))).length :=
          List.length_filter_le _ _
      _ = (ta.take 1000).length := List.length_map _ _
      _ ≤ 1000 := List.length_take_le _ _

/-! ## Search payload collection (`collectSearchPayload` in `main.js`) -/

/-- Value of the leading run of decimal digits, `none` when there is no
leading digit. -/
def leadingDigits (s : JStr) : Option Nat :=
  let ds := s.takeWhile Char.isDigit
  if ds.isEmpty then none
  else some (ds.foldl (fun a c => a * 10 + (c.toNat - 48)) 0)

/-- Model of JavaScript `parseInt(s, 10)`: skip leading whitespace, read
an optional sign and the leading run of decimal digits; `none` models
`NaN` (no digit found). -/
def jsParseInt (s : JStr) : Option Int :=
  match s.dropWhile isWS with
  | '-' :: rest => (leadingDigits rest).map (fun n => -(n : Int))
  | '+' :: rest => (leadingDigits rest).map (fun n => (n : Int))
  | rest => (leadingDigits rest).map (fun n => (n : Int))

/-- The limit computation of `collectSearchPayload`:
`limitInput && limitInput.value ? parseInt(limitInput.value, 10) || 20 : 20`
(`none` models an absent `#limit` element; an empty value string is
falsy; `NaN` and `0` are falsy, so `|| 20` replaces them). -/
def collectLimit (limitValue : Option JStr) : Int :=
  match limitValue with
  | none => 20
  | some s =>
    if s.isEmpty then 20
    else
      match jsParseInt s with
      | none => 20
      | some n => if n = 0 then 20 else n

/-- The form state `collectSearchPayload` reads: the two text inputs
(`none` when the element is absent), the values of the checked diet and
allergen checkboxes, the `#limit` value and the `#attach-labels` checked
state. -/
structure SearchForm where
  haveValue : Option JStr
  avoidValue : Option JStr
  dietChecked : List JStr
  allergenChecked : List JStr
  limitValue : Option JStr
  attachChecked : Option Bool

/-- The outgoing search payload: exactly the six fields
`have`, `avoid`, `diet`, `avoid_allergens`, `limit`, `attach_labels`
(the first is spelled `have_` because `have` is a Lean keyword). -/
structure SearchPayload where
  have_ : List JStr
  avoid : List JStr
  diet : List JStr
  avoid_allergens : List JStr
  limit : Int
  attach_labels : Bool
deriving DecidableEq

/-- `collectSearchPayload` from `main.js`. -/
def collectSearchPayload (form : SearchForm) : SearchPayload :=
  let hv := match form.haveValue with
    | some v => parseCommaList v
    | none => []
  let av := match form.avoidValue with
    | some v => parseCommaList v
    | none => []
  let diet := form.dietChecked.map (fun v => lowerL (trimL v))
  let allerg := form.allergenChecked.map (fun v => lowerL (trimL v))
  let limit := collectLimit form.limitValue
  let attach := form.attachChecked.getD false
  ⟨hv, av, diet, allerg, limit, attach⟩

/-- Claim C2 counterexample: a form whose `#limit` field holds `"-5"`
produces the payload limit `-5` — a negative value is passed through,
not defaulted to 20 as the claim states. -/
theorem C2_counterexample :
    (collectSearchPayload
      ⟨none, none, [], [], some ['-', '5'], none⟩).limit = -5 ∧
    ((-5 : Int) < 0) ∧ (-5 : Int) ≠ 20 := by
  refine ⟨by decide, by decide, by decide⟩

/-- Claim C2 (amended): the effective limit in the outgoing payload is
20 when the `#limit` element is missing, its value is empty, its value
does not parse to a number (`NaN`), or it parses to `0`; any other
parsed integer — positive or negative — is used as given. -/
theorem C2_limit_default (f : SearchForm) :
    (f.limitValue = none → (collectSearchPayload f).limit = 20) ∧
    (f.limitValue = some [] → (collectSearchPayload f).limit = 20) ∧
    (∀ s, f.limitValue = some s → jsParseInt s = none →
      (collectSearchPayload f).limit = 20) ∧
    (∀ s, f.limitValue = some s → jsParseInt s = some 0 →
      (collectSearchPayload f).limit = 20) ∧
    (∀ s n, f.limitValue = some s → s ≠ [] → jsParseInt s = some n →
      n ≠ 0 → (collectSearchPayload f).limit = n) := by
  have hlim : (collectSearchPayload f).limit = collectLimit f.limitValue := rfl
  refine ⟨?_, ?_, ?_, ?_, ?_⟩
  · intro h; rw [hlim, h]; rfl
  · intro h; rw [hlim, h]; rfl
  · intro s h hp
    rw [hlim, h]
    simp only [collectLimit]
    by_cases hs : s.isEmpty
    · rw [if_pos hs]
    · rw [if_neg hs, hp]
  · intro s h hp
    rw [hlim, h]
    simp only [collectLimit]
    by_cases hs : s.isEmpty
    · rw [if_pos hs]
    · rw [if_neg hs, hp]; rfl
  · intro s n h hs hp hn
    rw [hlim, h]
    simp only [collectLimit]
    rw [if_neg (by simpa [List.isEmpty_iff] using hs), hp]
    exact if_neg hn

/-- Witness for C2 at a concrete input: with `#limit` holding `"-5"`,
the amended rule gives the payload limit `-5`. -/
theorem C2_witness :
    (collectSearchPayload
      ⟨none, none, [], [], some ['-', '5'], none⟩).limit = -5 :=
  (C2_limit_default ⟨none, none, [], [], some ['-', '5'], none⟩).2.2.2.2
    ['-', '5'] (-5) rfl (by decide) (by decide) (by decide)

/-- Claim C3: for every form state, `collectSearchPayload` returns an
object with exactly the fields `have`, `avoid`, `diet`,
`avoid_allergens`, `limit`, `attach_labels` (the `SearchPayload`
structure), where the first four are lists of strings, `limit` is an
integer and `attach_labels` is a boolean; each field is as computed
from the form. -/
theorem C3_payload_shape (f : SearchForm) :
    collectSearchPayload f =
      { have_ := match f.haveValue with
          | some v => parseCommaList v
          | none => []
        avoid := match f.avoidValue with
          | some v => parseCommaList v
          | none => []
        diet := f.dietChecked.map (fun v => lowerL (trimL v))
        avoid_allergens := f.allergenChecked.map (fun v => lowerL (trimL v))
        limit := collectLimit f.limitValue
        attach_labels := f.attachChecked.getD false } := rfl

/-! ## Normalization lemmas for `trimL`, `splitComma`, `parseCommaList` -/

theorem dropWhile_idem (p : Char → Bool) :
    ∀ s : JStr, (s.dropWhile p).dropWhile p = s.dropWhile p
  | [] => rfl
  | a :: s => by
    cases hp : p a with
    | true => simp [List.dropWhile_cons, hp, dropWhile_idem p s]
    | false => simp [List.dropWhile_cons, hp]

/-- Trailing-whitespace removal, the second half of `trimL`. -/
def trimR (s : JStr) : JStr :=
  (s.reverse.dropWhile isWS).reverse

theorem trimL_eq_trimR_dropWhile (s : JStr) :
    trimL s = trimR (s.dropWhile isWS) := rfl

theorem trimR_prefix (u : JStr) : trimR u <+: u := by
  have h := List.reverse_prefix.mpr (List.dropWhile_suffix (l := u.reverse) isWS)
  rwa [List.reverse_reverse] at h

theorem trimR_idem (u : JStr) : trimR (trimR u) = trimR u := by
  unfold trimR
  rw [List.reverse_reverse, dropWhile_idem]

/-- Removing trailing whitespace preserves the absence of leading
whitespace. -/
theorem dropWhile_trimR (u : JStr) (hu : u.dropWhile isWS = u) :
    (trimR u).dropWhile isWS = trimR u := by
  obtain ⟨t, ht⟩ := trimR_prefix u
  cases hr : trimR u with
  | nil => rfl
  | cons a w =>
    rw [hr] at ht
    have ha : isWS a = false := by
      cases hwa : isWS a with
      | false => rfl
      | true =>
        exfalso
        have hlen : (u.dropWhile isWS).length < u.length := by
          rw [← ht, List.cons_append, List.dropWhile_cons, hwa]
          simp only [if_true]
          calc ((w ++ t).dropWhile isWS).length
              ≤ (w ++ t).length := (List.dropWhile_suffix isWS).sublist.length_le
            _ < (a :: (w ++ t)).length := by simp
        rw [hu] at hlen
        exact lt_irrefl _ hlen
    rw [List.dropWhile_cons, ha]
    simp

theorem trimL_idem (s : JStr) : trimL (trimL s) = trimL s := by
  rw [trimL_eq_trimR_dropWhile s, trimL_eq_trimR_dropWhile]
  rw [dropWhile_trimR (s.dropWhile isWS) (dropWhile_idem isWS s)]
  exact trimR_idem _

theorem trimL_cons_ws (c : Char) (s : JStr) (hc : isWS c = true) :
    trimL (c :: s) = trimL s := by
  unfold trimL
  rw [List.dropWhile_cons, hc]
  simp

theorem mem_trimL (x : Char) (s : JStr) (hx : x ∈ trimL s) : x ∈ s := by
  unfold trimL at hx
  rw [List.mem_reverse] at hx
  have h1 := (List.dropWhile_suffix (l := (s.dropWhile isWS).reverse) isWS).sublist.mem hx
  rw [List.mem_reverse] at h1
  exact (List.dropWhile_suffix isWS).sublist.mem h1

theorem splitComma_of_no_comma :
    ∀ t : JStr, ',' ∉ t → splitComma t = [t]
  | [], _ => rfl
  | c :: t, h => by
    have hc : ¬c = ',' := fun hcc => h (hcc ▸ List.mem_cons_self c t)
    have ht : ',' ∉ t := fun hm => h (List.mem_cons_of_mem c hm)
    simp only [splitComma, if_neg hc, splitComma_of_no_comma t ht]

theorem splitComma_append :
    ∀ t : JStr, ∀ l : JStr, ',' ∉ t →
      splitComma (t ++ ',' :: l) = t :: splitComma l
  | [], l, _ => by simp [splitComma]
  | c :: t, l, h => by
    have hc : ¬c = ',' := fun hcc => h (hcc ▸ List.mem_cons_self c t)
    have ht : ',' ∉ t := fun hm => h (List.mem_cons_of_mem c hm)
    simp only [List.cons_append, splitComma, if_neg hc, List.append_eq,
      splitComma_append t l ht]

theorem not_mem_splitComma :
    ∀ s : JStr, ∀ p ∈ splitComma s, ',' ∉ p
  | [], p, hp => by
    simp only [splitComma, List.mem_singleton] at hp
    subst hp
    exact List.not_mem_nil ','
  | c :: s, p, hp => by
    by_cases hc : c = ','
    · subst hc
      simp only [splitComma, if_true, List.mem_cons, reduceIte] at hp
      rcases hp with hp0 | hp
      · subst hp0
        exact List.not_mem_nil ','
      · exact not_mem_splitComma s p hp
    · simp only [splitComma, if_neg hc] at hp
      have hshape : (splitComma s = []) ∨ (∃ q qs, splitComma s = q :: qs) := by
        cases splitComma s with
        | nil => exact Or.inl rfl
        | cons q qs => exact Or.inr ⟨q, qs, rfl⟩
      rcases hshape with hq | ⟨q, qs, hq⟩
      · rw [hq] at hp
        simp only [List.mem_singleton] at hp
        subst hp
        intro hm
        rcases List.mem_cons.mp hm with h1 | h2
        · exact hc h1.symm
        · exact List.not_mem_nil ',' h2
      · rw [hq] at hp
        rcases List.mem_cons.mp hp with h1 | h2
        · subst h1
          intro hm
          rcases List.mem_cons.mp hm with hm1 | hm2
          · exact hc hm1.symm
          · exact not_mem_splitComma s q
              (hq ▸ List.mem_cons_self q qs) hm2
        · exact not_mem_splitComma s p
            (hq ▸ List.mem_cons_of_mem q h2)

/-- Every term `parseCommaList` produces is already trimmed, non-empty,
and free of commas. -/
theorem parseCommaList_term_props (v : JStr) :
    ∀ t ∈ parseCommaList v, trimL t = t ∧ t ≠ [] ∧ ',' ∉ t := by
  intro t ht
  unfold parseCommaList at ht
  rw [List.mem_filter] at ht
  obtain ⟨hmem, hne⟩ := ht
  rw [List.mem_map] at hmem
  obtain ⟨pc, hpc, rfl⟩ := hmem
  refine ⟨trimL_idem pc, ?_, ?_⟩
  · simpa [List.isEmpty_iff] using hne
  · intro hcm
    exact not_mem_splitComma v pc hpc (mem_trimL ',' pc hcm)

/-! ## Input chips (`initInputChips` in `main.js`) -/

/-- Model of `[...new Set(xs)]`: keep the first occurrence of each
element, in insertion order (the iteration order of a JS `Set`). -/
def uniqueFirstAux {α : Type} [DecidableEq α] (seen : List α) :
    List α → List α
  | [] => []
  | a :: l =>
    if a ∈ seen then uniqueFirstAux seen l
    else a :: uniqueFirstAux (a :: seen) l

/-- `[...new Set(xs)]`. -/
def uniqueFirst {α : Type} [DecidableEq α] (l : List α) : List α :=
  uniqueFirstAux [] l

/-- `ts.join(", ")` of JavaScript, on the model. -/
def joinCS : List JStr → JStr
  | [] => []
  | [t] => t
  | t :: t' :: ts => t ++ ',' :: ' ' :: joinCS (t' :: ts)

/-- The `change` handler installed by `initInputChips`:
`inp.value = [...new Set(parseCommaList(inp.value))].join(", ")`. -/
def chipCleanup (v : JStr) : JStr :=
  joinCS (uniqueFirst (parseCommaList v))

theorem mem_uniqueFirstAux {α : Type} [DecidableEq α] :
    ∀ (seen l : List α) (x : α), x ∈ uniqueFirstAux seen l → x ∈ l
  | _, [], _, hx => absurd hx (List.not_mem_nil _)
  | seen, a :: l, x, hx => by
    by_cases ha : a ∈ seen
    · simp only [uniqueFirstAux, if_pos ha] at hx
      exact List.mem_cons_of_mem a (mem_uniqueFirstAux seen l x hx)
    · simp only [uniqueFirstAux, if_neg ha] at hx
      rcases List.mem_cons.mp hx with h1 | h2
      · exact h1 ▸ List.mem_cons_self a l
      · exact List.mem_cons_of_mem a (mem_uniqueFirstAux (a :: seen) l x h2)

theorem uniqueFirstAux_nodup {α : Type} [DecidableEq α] :
    ∀ (seen l : List α),
      (uniqueFirstAux seen l).Nodup ∧
      ∀ x ∈ uniqueFirstAux seen l, x ∉ seen
  | _, [] => ⟨List.nodup_nil, fun x hx => absurd hx (List.not_mem_nil x)⟩
  | seen, a :: l => by
    by_cases ha : a ∈ seen
    · simp only [uniqueFirstAux, if_pos ha]
      exact uniqueFirstAux_nodup seen l
    · simp only [uniqueFirstAux, if_neg ha]
      obtain ⟨hnd, hout⟩ := uniqueFirstAux_nodup (a :: seen) l
      refine ⟨List.nodup_cons.mpr ⟨?_, hnd⟩, ?_⟩
      · intro hmem
        exact hout a hmem (List.mem_cons_self a seen)
      · intro x hx
        rcases List.mem_cons.mp hx with h1 | h2
        · exact h1 ▸ ha
        · exact fun hs => hout x h2 (List.mem_cons_of_mem a hs)

theorem uniqueFirstAux_eq_self {α : Type} [DecidableEq α] :
    ∀ (seen l : List α), l.Nodup → (∀ x ∈ l, x ∉ seen) →
      uniqueFirstAux seen l = l
  | _, [], _, _ => rfl
  | seen, a :: l, hnd, hdisj => by
    have ha : a ∉ seen := hdisj a (List.mem_cons_self a l)
    obtain ⟨hal, hl⟩ := List.nodup_cons.mp hnd
    simp only [uniqueFirstAux, if_neg ha]
    rw [uniqueFirstAux_eq_self (a :: seen) l hl]
    intro x hx
    intro hmem
    rcases List.mem_cons.mp hmem with h1 | h2
    · exact hal (h1 ▸ hx)
    · exact hdisj x (List.mem_cons_of_mem a hx) h2

theorem uniqueFirst_nodup {α : Type} [DecidableEq α] (l : List α) :
    (uniqueFirst l).Nodup :=
  (uniqueFirstAux_nodup [] l).1

theorem mem_uniqueFirst {α : Type} [DecidableEq α] (l : List α) (x : α)
    (hx : x ∈ uniqueFirst l) : x ∈ l :=
  mem_uniqueFirstAux [] l x hx

theorem uniqueFirst_eq_self {α : Type} [DecidableEq α] (l : List α)
    (h : l.Nodup) : uniqueFirst l = l :=
  uniqueFirstAux_eq_self [] l h (fun x _ => List.not_mem_nil x)

theorem splitComma_joinCS :
    ∀ ts : List JStr, (∀ t ∈ ts, ',' ∉ t) →
      splitComma (joinCS ts) =
        (match ts with
         | [] => [([] : JStr)]
         | t1 :: rest => t1 :: rest.map (fun t => ' ' :: t))
  | [], _ => rfl
  | [t], h => by
    simp only [joinCS]
    rw [splitComma_of_no_comma t (h t (List.mem_cons_self t []))]
    rfl
  | t :: t' :: ts, h => by
    have ht : ',' ∉ t := h t (List.mem_cons_self t _)
    have hrest : ∀ u ∈ t' :: ts, ',' ∉ u :=
      fun u hu => h u (List.mem_cons_of_mem t hu)
    have ih := splitComma_joinCS (t' :: ts) hrest
    simp only [joinCS]
    rw [splitComma_append t _ ht]
    have hsp : splitComma (' ' :: joinCS (t' :: ts))
        = (' ' :: t') :: ts.map (fun u => ' ' :: u) := by
      have hne : ¬(' ' = ',') := by decide
      simp only [splitComma, if_neg hne, ih]
    rw [hsp]
    rfl

/-- Splitting `ts.join(", ")` back, trimming, and dropping empties
recovers `ts`, provided every element of `ts` is a trimmed, non-empty,
comma-free term. -/
theorem parseCommaList_joinCS (ts : List JStr)
    (h : ∀ t ∈ ts, trimL t = t ∧ t ≠ [] ∧ ',' ∉ t) :
    parseCommaList (joinCS ts) = ts := by
  have hcm : ∀ t ∈ ts, ',' ∉ t := fun t ht => (h t ht).2.2
  unfold parseCommaList
  rw [splitComma_joinCS ts hcm]
  cases ts with
  | nil => rfl
  | cons t1 rest =>
    have h1 := h t1 (List.mem_cons_self t1 rest)
    simp only [List.map_cons, h1.1, List.map_map]
    have hmap : rest.map (trimL ∘ fun t => ' ' :: t) = rest := by
      have hcongr : ∀ t ∈ rest, (trimL ∘ fun u => ' ' :: u) t = t := by
        intro t ht
        have h2 := h t (List.mem_cons_of_mem t1 ht)
        simp only [Function.comp_apply]
        rw [trimL_cons_ws ' ' t (by decide)]
        exact h2.1
      rw [List.map_congr_left hcongr, List.map_id']
    rw [hmap]
    rw [List.filter_eq_self.mpr]
    intro t ht
    rcases List.mem_cons.mp ht with h1' | h2'
    · subst h1'
      simpa [List.isEmpty_iff] using h1.2.1
    · simpa [List.isEmpty_iff] using (h t (List.mem_cons_of_mem t1 h2')).2.1

/-- Claim C10: the input-chip cleanup
`v -> unique(parseCommaList(v)).join(", ")` is idempotent: applied to
its own output it returns that output unchanged. -/
theorem C10_chipCleanup_idempotent (v : JStr) :
    chipCleanup (chipCleanup v) = chipCleanup v := by
  unfold chipCleanup
  have hterms : ∀ t ∈ uniqueFirst (parseCommaList v),
      trimL t = t ∧ t ≠ [] ∧ ',' ∉ t :=
    fun t ht =>
      parseCommaList_term_props v t (mem_uniqueFirst (parseCommaList v) t ht)
  rw [parseCommaList_joinCS (uniqueFirst (parseCommaList v)) hterms]
  rw [uniqueFirst_eq_self _ (uniqueFirst_nodup (parseCommaList v))]

/-! ## Claim C4: term normalization -/

/-- Claim C4 counterexample: the input `"Gato  Piman"` yields the single
term `"Gato  Piman"` — it is neither lower-cased nor has its internal
double space collapsed, contradicting the claim that every produced term
is lower-cased with internal whitespace runs collapsed. -/
theorem C4_counterexample :
    parseCommaList "Gato  Piman".toList = ["Gato  Piman".toList] ∧
    lowerL "Gato  Piman".toList ≠ "Gato  Piman".toList ∧
    "Gato  Piman".toList ≠ "Gato Piman".toList := by
  refine ⟨by decide, by decide, by decide⟩

/-- Claim C4 (amended): each term `parseCommaList` produces is trimmed
of leading and trailing whitespace and non-empty; terms are not
lower-cased and internal whitespace runs are not collapsed (the
typeahead change handler separately trims and lower-cases its input,
but only for comparison). -/
theorem C4_terms_trimmed (v : JStr) :
    ∀ t ∈ parseCommaList v, trimL t = t ∧ t ≠ [] := by
  intro t ht
  obtain ⟨h1, h2, _⟩ := parseCommaList_term_props v t ht
  exact ⟨h1, h2⟩

/-- Witness for C4 at a concrete input: the term `"ail"` produced from
`" ail ,"` is trimmed and non-empty. -/
theorem C4_witness :
    trimL ['a', 'i', 'l'] = ['a', 'i', 'l'] ∧ (['a', 'i', 'l'] : JStr) ≠ [] :=
  C4_terms_trimmed [' ', 'a', 'i', 'l', ' ', ','] ['a', 'i', 'l'] (by decide)

/-! ## Matcher/Ranker scoring and ordering -/

/-- Modelled from the spec: the Matcher/Ranker component (design §4.5)
is not among the repository's source files — only the client-side
scripts are — so its scoring and ordering are modelled from the spec's
words. A post-filter candidate recipe carries its ingredient
classification counts; recipe ids are modelled as naturals ordered
ascending. -/
structure RecipeMatch where
  rid : Nat
  have_count : Nat
  missing_count : Nat
deriving DecidableEq

/-- Modelled from the spec: a scored search result, carrying the
numeric `score` alongside the counts. -/
structure ScoredResult where
  rid : Nat
  have_count : Nat
  missing_count : Nat
  score : Int
deriving DecidableEq

/-- Modelled from the spec: scoring assigns
`score = have_count - missing_count`. -/
def toScored (m : RecipeMatch) : ScoredResult :=
  ⟨m.rid, m.have_count, m.missing_count,
    (m.have_count : Int) - (m.missing_count : Int)⟩

/-- The result ordering of the spec: descending by score, then by
`have_count` descending, then by recipe id ascending. -/
def rankLE (a b : ScoredResult) : Prop :=
  b.score < a.score ∨
    (a.score = b.score ∧
      (b.have_count < a.have_count ∨
        (a.have_count = b.have_count ∧ a.rid ≤ b.rid)))

instance : DecidableRel rankLE := fun a b => by
  unfold rankLE
  infer_instance

instance : IsTotal ScoredResult rankLE :=
  ⟨fun a b => by unfold rankLE; omega⟩

instance : IsTrans ScoredResult rankLE :=
  ⟨fun a b c hab hbc => by
    unfold rankLE at hab hbc ⊢
    omega⟩

/-- Modelled from the spec: the search pipeline after filtering and
ingredient classification — score every surviving recipe, sort by the
result ordering, truncate to the (effective) limit. -/
def searchRank (ms : List RecipeMatch) (limit : Nat) : List ScoredResult :=
  ((ms.map toScored).insertionSort rankLE).take limit

/-- Claim C1: search results are scored with
`score = have_count - missing_count`, sorted descending by score, then
by `have_count` descending, then by recipe id ascending, and truncated
to at most `limit` entries. (Matcher/Ranker modelled from the spec; see
`RecipeMatch`.) -/
theorem C1_searchRank_scored_sorted_truncated
    (ms : List RecipeMatch) (limit : Nat) :
    (searchRank ms limit).length ≤ limit ∧
    (∀ r ∈ searchRank ms limit,
      r.score = (r.have_count : Int) - (r.missing_count : Int)) ∧
    (searchRank ms limit).Pairwise rankLE := by
  refine ⟨?_, ?_, ?_⟩
  · exact List.length_take_le limit _
  · intro r hr
    have hr1 : r ∈ (ms.map toScored).insertionSort rankLE :=
      (List.take_sublist limit _).mem hr
    have hr2 : r ∈ ms.map toScored :=
      (List.mem_insertionSort rankLE).mp hr1
    obtain ⟨m, _, rfl⟩ := List.mem_map.mp hr2
    rfl
  · exact (List.sorted_insertionSort rankLE _).sublist
      (List.take_sublist limit _)

/-- Witness for C1 at a concrete input: the single candidate with
`have_count = 2`, `missing_count = 1` appears with score `2 - 1`. -/
theorem C1_witness :
    (⟨7, 2, 1, 1⟩ : ScoredResult).score
      = (((2 : Nat) : Int) - ((1 : Nat) : Int)) :=
  (C1_searchRank_scored_sorted_truncated [⟨7, 2, 1⟩] 3).2.1
    ⟨7, 2, 1, 1⟩ (by decide)

end MRF
